import Mathlib

/-!
Verification of the meme-editor core: the interactive crop-region engine
(coordinate transform and drag/resize state machine from `ImageCropper`)
and the text-layout renderer (greedy character wrap and bottom-anchored
drawing from `MemePreview` / `FloatingPreview`).

All pixel coordinates are modelled as exact rationals; the source performs
plain IEEE arithmetic on the same expressions.
-/

namespace MemeEditor

/-- A 2D point, as the `{x, y}` objects of the source. -/
structure Vec2 where
  x : ℚ
  y : ℚ
deriving DecidableEq

/-- A rectangle `{x, y, width, height}`, the shape of `cropBox` and of
`CropData` in the source. -/
structure Rect where
  x : ℚ
  y : ℚ
  width : ℚ
  height : ℚ
deriving DecidableEq

/-- The geometry the crop state machine reads while handling a move:
`imageOffset` and the rendered image client size. -/
structure Geom where
  offsetX : ℚ
  offsetY : ℚ
  imageClientWidth : ℚ
  imageClientHeight : ℚ
deriving DecidableEq

/-- The constant `MIN_CROP_SIZE` from `ImageCropper`. -/
def MIN_CROP_SIZE : ℚ := 50

/-- The interaction mode of the crop state machine: `isDragging` /
`isResizing` flags of the source, with `idle` when both are false. -/
inductive Mode where
  | idle
  | dragging
  | resizing
deriving DecidableEq

/-- The function `convertDisplayToSourceCrop` from `ImageCropper`: subtract the image
offset from the position and multiply each axis by its scale factor. -/
def convertDisplayToSourceCrop (scale imageOffset : Vec2) (displayCrop : Rect) : Rect :=
  { x := (displayCrop.x - imageOffset.x) * scale.x
    y := (displayCrop.y - imageOffset.y) * scale.y
    width := displayCrop.width * scale.x
    height := displayCrop.height * scale.y }

/-- The scale factors computed in `handleImageLoad`:
`{ x: naturalWidth / renderedWidth, y: naturalHeight / renderedHeight }`. -/
def loadScale (naturalWidth naturalHeight renderedWidth renderedHeight : ℚ) : Vec2 :=
  ⟨naturalWidth / renderedWidth, naturalHeight / renderedHeight⟩

/-- The image offset computed in `handleImageLoad`: the rendered image is
centered in the container. -/
def loadOffset (containerWidth containerHeight renderedWidth renderedHeight : ℚ) : Vec2 :=
  ⟨(containerWidth - renderedWidth) / 2, (containerHeight - renderedHeight) / 2⟩

/-- The pattern `Math.max(lo, Math.min(v, hi))` used as position clamp in
`handleInteractionMove`. -/
def clamp (v lo hi : ℚ) : ℚ := max lo (min v hi)

/-- The final position re-clamp of `handleInteractionMove` (lines
computing `minX`, `minY`, `maxX`, `maxY` and clamping `newCrop`). -/
def clampPos (g : Geom) (r : Rect) : Rect :=
  { r with
    x := clamp r.x g.offsetX (g.offsetX + g.imageClientWidth - r.width)
    y := clamp r.y g.offsetY (g.offsetY + g.imageClientHeight - r.height) }

/-- The resize branch of `handleInteractionMove`: `delta = max(deltaX, deltaY)`,
`newSize = prev.width + delta`, clamped below by `MIN_CROP_SIZE` and above by
`maxAllowedSizeX` and `maxAllowedSizeY`, the distances from the current
top-left corner to the right and bottom image edges. -/
def resizeSize (g : Geom) (r : Rect) (dx dy : ℚ) : ℚ :=
  min (min (max MIN_CROP_SIZE (r.width + max dx dy))
    ((g.offsetX + g.imageClientWidth) - r.x))
    ((g.offsetY + g.imageClientHeight) - r.y)

/-- One `handleInteractionMove` state update: a no-op when idle, otherwise
the resize or drag branch followed by the position re-clamp. `dx, dy` is
the pointer delta `pos - startPos`. -/
def moveStep (g : Geom) (m : Mode) (r : Rect) (dx dy : ℚ) : Rect :=
  match m with
  | .idle => r
  | .resizing =>
      clampPos g { r with width := resizeSize g r dx dy, height := resizeSize g r dx dy }
  | .dragging =>
      clampPos g { r with x := r.x + dx, y := r.y + dy }

/-- A sequence of interaction-move steps, each with its own mode and
pointer delta (the source recomputes the delta from `startPos` at every
move, so an arbitrary delta per step models every pointer trajectory). -/
def runMoves (g : Geom) (evs : List (Mode × ℚ × ℚ)) (r : Rect) : Rect :=
  evs.foldl (fun r e => moveStep g e.1 r e.2.1 e.2.2) r

/-- The CropRect display-space invariant of the specification: square, at
least `MIN_CROP_SIZE`, and fully inside the rendered image bounding box. -/
def Valid (g : Geom) (r : Rect) : Prop :=
  r.width = r.height ∧
  MIN_CROP_SIZE ≤ r.width ∧
  g.offsetX ≤ r.x ∧
  g.offsetY ≤ r.y ∧
  r.x + r.width ≤ g.offsetX + g.imageClientWidth ∧
  r.y + r.height ≤ g.offsetY + g.imageClientHeight

instance (g : Geom) (r : Rect) : Decidable (Valid g r) := by
  unfold Valid; infer_instance

theorem lo_le_clamp (v lo hi : ℚ) : lo ≤ clamp v lo hi :=
  le_max_left _ _

theorem clamp_le_hi (v : ℚ) {lo hi : ℚ} (h : lo ≤ hi) : clamp v lo hi ≤ hi :=
  max_le h (min_le_right _ _)

theorem resizeSize_min (g : Geom) (r : Rect) (dx dy : ℚ) (hv : Valid g r) :
    MIN_CROP_SIZE ≤ resizeSize g r dx dy := by
  obtain ⟨hsq, hmin, hx, hy, hxw, hyh⟩ := hv
  exact le_min (le_min (le_max_left _ _) (by linarith)) (by linarith)

theorem resizeSize_le_x (g : Geom) (r : Rect) (dx dy : ℚ) :
    resizeSize g r dx dy ≤ (g.offsetX + g.imageClientWidth) - r.x :=
  le_trans (min_le_left _ _) (min_le_right _ _)

theorem resizeSize_le_y (g : Geom) (r : Rect) (dx dy : ℚ) :
    resizeSize g r dx dy ≤ (g.offsetY + g.imageClientHeight) - r.y :=
  min_le_right _ _

/-- Single-step preservation: any one interaction-move, in any mode and with
any pointer delta, keeps the crop rectangle valid. -/
theorem moveStep_preserves (g : Geom) (m : Mode) (r : Rect) (dx dy : ℚ)
    (hv : Valid g r) : Valid g (moveStep g m r dx dy) := by
  obtain ⟨hsq, hmin, hx, hy, hxw, hyh⟩ := hv
  cases m with
  | idle => exact ⟨hsq, hmin, hx, hy, hxw, hyh⟩
  | dragging =>
      have hW : r.width ≤ g.imageClientWidth := by linarith
      have hH : r.height ≤ g.imageClientHeight := by linarith
      have hclx : clamp (r.x + dx) g.offsetX (g.offsetX + g.imageClientWidth - r.width) ≤
          g.offsetX + g.imageClientWidth - r.width :=
        clamp_le_hi _ (by linarith)
      have hcly : clamp (r.y + dy) g.offsetY (g.offsetY + g.imageClientHeight - r.height) ≤
          g.offsetY + g.imageClientHeight - r.height :=
        clamp_le_hi _ (by linarith)
      simp only [moveStep, clampPos, Valid]
      exact ⟨hsq, hmin, lo_le_clamp _ _ _, lo_le_clamp _ _ _, by linarith, by linarith⟩
  | resizing =>
      have hs : MIN_CROP_SIZE ≤ resizeSize g r dx dy :=
        resizeSize_min g r dx dy ⟨hsq, hmin, hx, hy, hxw, hyh⟩
      have hsx := resizeSize_le_x g r dx dy
      have hsy := resizeSize_le_y g r dx dy
      have hclx : clamp r.x g.offsetX (g.offsetX + g.imageClientWidth - resizeSize g r dx dy) ≤
          g.offsetX + g.imageClientWidth - resizeSize g r dx dy :=
        clamp_le_hi _ (by linarith)
      have hcly : clamp r.y g.offsetY (g.offsetY + g.imageClientHeight - resizeSize g r dx dy) ≤
          g.offsetY + g.imageClientHeight - resizeSize g r dx dy :=
        clamp_le_hi _ (by linarith)
      simp only [moveStep, clampPos, Valid]
      exact ⟨trivial, hs, lo_le_clamp _ _ _, lo_le_clamp _ _ _, by linarith, by linarith⟩

/-- C1: the display-to-source conversion subtracts the centering offset and
multiplies each axis by its scale factor; with natural size 1000×800 rendered
at 400×320 inside a 400×400 container the scale is (2.5, 2.5) and the offset
(0, 40), and the display rectangle (100, 140, 100, 100) converts to the
source rectangle (250, 250, 250, 250). -/
theorem claim1_displayToSource :
    (∀ (scale imageOffset : Vec2) (r : Rect),
      convertDisplayToSourceCrop scale imageOffset r =
        ⟨(r.x - imageOffset.x) * scale.x, (r.y - imageOffset.y) * scale.y,
         r.width * scale.x, r.height * scale.y⟩) ∧
    loadScale 1000 800 400 320 = ⟨2.5, 2.5⟩ ∧
    loadOffset 400 400 400 320 = ⟨0, 40⟩ ∧
    convertDisplayToSourceCrop ⟨2.5, 2.5⟩ ⟨0, 40⟩ ⟨100, 140, 100, 100⟩ =
      ⟨250, 250, 250, 250⟩ := by
  refine ⟨fun scale imageOffset r => rfl, ?_, ?_, ?_⟩ <;>
    simp only [loadScale, loadOffset, convertDisplayToSourceCrop,
      Vec2.mk.injEq, Rect.mk.injEq] <;> norm_num

/-- C2: starting from any valid crop rectangle (square, side at least
`MIN_CROP_SIZE`, fully inside the rendered image bounds), every sequence of
interaction-move steps, in any modes and with any pointer deltas, leaves the
rectangle valid; since every prefix of a sequence is itself a sequence, the
invariant holds after every single step. -/
theorem claim2_crop_invariant (g : Geom) (r : Rect) (hv : Valid g r)
    (evs : List (Mode × ℚ × ℚ)) : Valid g (runMoves g evs r) := by
  induction evs generalizing r with
  | nil => exact hv
  | cons e evs ih => exact ih _ (moveStep_preserves g e.1 r e.2.1 e.2.2 hv)

/-- Witness for C2: a drag by (20, 5) followed by a resize by (500, 10) from
the square (100, 100, 100, 100) inside a 400×400 image keeps the rectangle
valid. -/
theorem claim2_crop_invariant_witness :
    Valid ⟨0, 0, 400, 400⟩
      (runMoves ⟨0, 0, 400, 400⟩ [(.dragging, 20, 5), (.resizing, 500, 10)]
        ⟨100, 100, 100, 100⟩) :=
  claim2_crop_invariant ⟨0, 0, 400, 400⟩ ⟨100, 100, 100, 100⟩
    (by norm_num [Valid, MIN_CROP_SIZE]) _

/-- C3: a resizing move with delta (dx, dy) sets both width and height to
`growth = max(dx, dy)` added to the old width, clamped below by
`MIN_CROP_SIZE` and above by the distances to the right and bottom image
edges; in particular resizing with (500, 10) from (100, 100, 100, 100)
inside a 400×400 bound yields size min(100+500, 400-100, 400-100) = 300. -/
theorem claim3_resize_clamp :
    (∀ (g : Geom) (r : Rect) (dx dy : ℚ),
      (moveStep g .resizing r dx dy).width =
        min (min (max MIN_CROP_SIZE (r.width + max dx dy))
          ((g.offsetX + g.imageClientWidth) - r.x))
          ((g.offsetY + g.imageClientHeight) - r.y) ∧
      (moveStep g .resizing r dx dy).height =
        min (min (max MIN_CROP_SIZE (r.width + max dx dy))
          ((g.offsetX + g.imageClientWidth) - r.x))
          ((g.offsetY + g.imageClientHeight) - r.y)) ∧
    (moveStep ⟨0, 0, 400, 400⟩ .resizing ⟨100, 100, 100, 100⟩ 500 10).width = 300 ∧
    (moveStep ⟨0, 0, 400, 400⟩ .resizing ⟨100, 100, 100, 100⟩ 500 10).height = 300 := by
  refine ⟨fun g r dx dy => ⟨rfl, rfl⟩, ?_, ?_⟩ <;>
    norm_num [moveStep, resizeSize, clampPos, MIN_CROP_SIZE]

/-- C10: a resizing move never changes the top-left corner: when the corner
satisfies its bound-side invariants, the position re-clamp is the identity
there, so only width and height change. -/
theorem claim10_resize_fixes_corner (g : Geom) (r : Rect) (dx dy : ℚ)
    (hx : g.offsetX ≤ r.x) (hy : g.offsetY ≤ r.y) :
    (moveStep g .resizing r dx dy).x = r.x ∧ (moveStep g .resizing r dx dy).y = r.y := by
  have hsx := resizeSize_le_x g r dx dy
  have hsy := resizeSize_le_y g r dx dy
  constructor
  · show clamp r.x g.offsetX (g.offsetX + g.imageClientWidth - resizeSize g r dx dy) = r.x
    rw [clamp, min_eq_left (by linarith), max_eq_right hx]
  · show clamp r.y g.offsetY (g.offsetY + g.imageClientHeight - resizeSize g r dx dy) = r.y
    rw [clamp, min_eq_left (by linarith), max_eq_right hy]

/-- Witness for C10: the resize of the C3 scenario leaves the corner at
(100, 100). -/
theorem claim10_resize_fixes_corner_witness :
    (moveStep ⟨0, 0, 400, 400⟩ .resizing ⟨100, 100, 100, 100⟩ 500 10).x = 100 ∧
    (moveStep ⟨0, 0, 400, 400⟩ .resizing ⟨100, 100, 100, 100⟩ 500 10).y = 100 :=
  claim10_resize_fixes_corner ⟨0, 0, 400, 400⟩ ⟨100, 100, 100, 100⟩ 500 10
    (by norm_num) (by norm_num)

/-- The loop of `wrapText`: characters are consumed in order with index `n`,
accumulating the completed `lines` and the current `line`; a character
starts a new line exactly when the candidate `line + character` measures
wider than `maxWidth` and `n > 0`. Text is modelled as a list of characters
and `ctx.measureText` as an arbitrary width function. -/
def wrapLoop (measure : List Char → ℚ) (maxWidth : ℚ) :
    List Char → ℕ → List (List Char) → List Char → List (List Char) × List Char
  | [], _, lines, line => (lines, line)
  | c :: cs, n, lines, line =>
      if maxWidth < measure (line ++ [c]) ∧ 0 < n then
        wrapLoop measure maxWidth cs (n + 1) (lines ++ [line]) [c]
      else
        wrapLoop measure maxWidth cs (n + 1) lines (line ++ [c])

/-- The full list of lines produced by `wrapText`: the loop result with the
final `line` pushed unconditionally (`lines.push(line)` after the loop). -/
def wrapLines (measure : List Char → ℚ) (maxWidth : ℚ) (text : List Char) :
    List (List Char) :=
  (wrapLoop measure maxWidth text 0 [] []).1 ++ [(wrapLoop measure maxWidth text 0 [] []).2]

/-- A canvas text-drawing call issued by `wrapText`. -/
inductive DrawCmd where
  | strokeText (s : List Char) (x y : ℚ)
  | fillText (s : List Char) (x y : ℚ)
deriving DecidableEq

/-- The bottom-up drawing loop of `wrapText`: the list is traversed from its
last element to its first, each element stroked then filled at the current
`y`, which then decreases by `lineHeight`. Here the argument is the line
list already reversed, so it is consumed front to back. -/
def drawFromBottom (x lineHeight : ℚ) : List (List Char) → ℚ → List DrawCmd
  | [], _ => []
  | l :: rest, y =>
      DrawCmd.strokeText l x y :: DrawCmd.fillText l x y ::
        drawFromBottom x lineHeight rest (y - lineHeight)

/-- The function `wrapText(ctx, text, x, y, maxWidth, lineHeight)`: wrap the text, then
draw the lines from the bottom up starting at `y`. -/
def wrapText (measure : List Char → ℚ) (text : List Char)
    (x y maxWidth lineHeight : ℚ) : List DrawCmd :=
  drawFromBottom x lineHeight (wrapLines measure maxWidth text).reverse y

/-- The constant `PREVIEW_SIZE` from `MemePreview`, the output canvas side. -/
def PREVIEW_SIZE : ℚ := 512

/-- The `wrapText` call of `MemePreview`: horizontal center `width / 2`,
anchor `height - textYOffset`, `maxWidth = width * 0.9` and
`lineHeight = fontSize * 1.2`. -/
def memePreviewTextCmds (measure : List Char → ℚ) (text : List Char)
    (fontSize textYOffset : ℚ) : List DrawCmd :=
  wrapText measure text (PREVIEW_SIZE / 2) (PREVIEW_SIZE - textYOffset)
    (PREVIEW_SIZE * 0.9) (fontSize * 1.2)

/-- The wrap loop as worded by the specification: a character is appended to
the current line exactly when the candidate does not exceed `maxWidth` or
the current line is empty; otherwise the line is pushed and the character
starts a new line. Stated for comparison with `wrapLoop`, whose guard uses
the character index instead of line emptiness. -/
def wrapLoopSpec (measure : List Char → ℚ) (maxWidth : ℚ) :
    List Char → List (List Char) → List Char → List (List Char) × List Char
  | [], lines, line => (lines, line)
  | c :: cs, lines, line =>
      if measure (line ++ [c]) ≤ maxWidth ∨ line = [] then
        wrapLoopSpec measure maxWidth cs lines (line ++ [c])
      else
        wrapLoopSpec measure maxWidth cs (lines ++ [line]) [c]

/-- The line list of the specification-worded wrap. -/
def wrapLinesSpec (measure : List Char → ℚ) (maxWidth : ℚ) (text : List Char) :
    List (List Char) :=
  (wrapLoopSpec measure maxWidth text [] []).1 ++ [(wrapLoopSpec measure maxWidth text [] []).2]

theorem wrapLoop_eq_spec (measure : List Char → ℚ) (maxWidth : ℚ) (cs : List Char) :
    ∀ (n : ℕ) (lines : List (List Char)) (line : List Char),
      (0 < n ↔ line ≠ []) →
      wrapLoop measure maxWidth cs n lines line =
        wrapLoopSpec measure maxWidth cs lines line := by
  induction cs with
  | nil => intro n lines line _; rfl
  | cons c cs ih =>
      intro n lines line hinv
      simp only [wrapLoop, wrapLoopSpec]
      by_cases hc : maxWidth < measure (line ++ [c]) ∧ 0 < n
      · have hns : ¬(measure (line ++ [c]) ≤ maxWidth ∨ line = []) :=
          not_or.mpr ⟨not_le.mpr hc.1, hinv.mp hc.2⟩
        rw [if_pos hc, if_neg hns]
        exact ih (n + 1) (lines ++ [line]) [c] (by simp)
      · have hps : measure (line ++ [c]) ≤ maxWidth ∨ line = [] := by
          rcases not_and_or.mp hc with h | h
          · exact Or.inl (not_lt.mp h)
          · exact Or.inr (not_not.mp fun hne => h (hinv.mpr hne))
        rw [if_neg hc, if_pos hps]
        exact ih (n + 1) lines (line ++ [c]) (by simp)

/-- C4: the wrap loop appends the character to the current line exactly when
the candidate `line + character` does not measure wider than `maxWidth` or
the current line is empty, and otherwise pushes the line and starts a new
one with that character: the source guard `testWidth > maxWidth && n > 0`
agrees with this wording on every input, because the current line is empty
precisely at index zero. -/
theorem claim4_wrap_step_rule (measure : List Char → ℚ) (maxWidth : ℚ)
    (text : List Char) :
    wrapLines measure maxWidth text = wrapLinesSpec measure maxWidth text := by
  unfold wrapLines wrapLinesSpec
  rw [wrapLoop_eq_spec measure maxWidth text 0 [] [] (by simp)]

theorem wrapLoop_flatten (measure : List Char → ℚ) (maxWidth : ℚ) (cs : List Char) :
    ∀ (n : ℕ) (lines : List (List Char)) (line : List Char),
      (wrapLoop measure maxWidth cs n lines line).1.flatten ++
          (wrapLoop measure maxWidth cs n lines line).2 =
        lines.flatten ++ line ++ cs := by
  induction cs with
  | nil => intro n lines line; simp [wrapLoop]
  | cons c cs ih =>
      intro n lines line
      simp only [wrapLoop]
      by_cases hc : maxWidth < measure (line ++ [c]) ∧ 0 < n
      · rw [if_pos hc, ih]
        simp
      · rw [if_neg hc, ih]
        simp

theorem wrapLines_flatten (measure : List Char → ℚ) (maxWidth : ℚ)
    (text : List Char) : (wrapLines measure maxWidth text).flatten = text := by
  unfold wrapLines
  have h := wrapLoop_flatten measure maxWidth text 0 [] []
  simpa using h

/-- C8: the concatenation, in order, of all lines produced by the wrap
algorithm is the input text: no character is dropped, duplicated or
reordered. -/
theorem claim8_concat_preserved (measure : List Char → ℚ) (maxWidth : ℚ)
    (text : List Char) : (wrapLines measure maxWidth text).flatten = text :=
  wrapLines_flatten measure maxWidth text

/-- C7: the wrap algorithm is idempotent: wrapping the concatenation of its
own output lines at the same width reproduces exactly the same line list. -/
theorem claim7_wrap_idempotent (measure : List Char → ℚ) (maxWidth : ℚ)
    (text : List Char) :
    wrapLines measure maxWidth (wrapLines measure maxWidth text).flatten =
      wrapLines measure maxWidth text := by
  rw [wrapLines_flatten]

/-- Counterexample to C5 as stated: on empty text the wrap algorithm pushes
the final (empty) line unconditionally, so it produces one line, not zero,
and the draw loop issues one stroke call and one fill call with the empty
string. -/
theorem claim5_counterexample :
    wrapLines (fun _ => (0 : ℚ)) (PREVIEW_SIZE * 0.9) [] = [[]] ∧
    wrapText (fun _ => (0 : ℚ)) [] (PREVIEW_SIZE / 2) (PREVIEW_SIZE - 30)
        (PREVIEW_SIZE * 0.9) (51 * 1.2) =
      [DrawCmd.strokeText [] (PREVIEW_SIZE / 2) (PREVIEW_SIZE - 30),
       DrawCmd.fillText [] (PREVIEW_SIZE / 2) (PREVIEW_SIZE - 30)] :=
  ⟨rfl, rfl⟩

/-- C5 amended: empty text produces exactly one line, the empty one, and the
renderer makes exactly one stroke call and one fill call, both with the
empty string at the anchor position (so no visible glyph is drawn). -/
theorem claim5_empty_text (measure : List Char → ℚ)
    (x y maxWidth lineHeight : ℚ) :
    wrapLines measure maxWidth [] = [[]] ∧
    wrapText measure [] x y maxWidth lineHeight =
      [DrawCmd.strokeText [] x y, DrawCmd.fillText [] x y] :=
  ⟨rfl, rfl⟩

theorem wrapLoop_goodLines (measure : List Char → ℚ) (maxWidth : ℚ)
    (cs : List Char) :
    ∀ (n : ℕ) (lines : List (List Char)) (line : List Char),
      (n = 0 → line = []) →
      (∀ l ∈ lines, measure l ≤ maxWidth ∨ l.length ≤ 1) →
      (measure line ≤ maxWidth ∨ line.length ≤ 1) →
      ∀ l ∈ (wrapLoop measure maxWidth cs n lines line).1 ++
          [(wrapLoop measure maxWidth cs n lines line).2],
        measure l ≤ maxWidth ∨ l.length ≤ 1 := by
  induction cs with
  | nil =>
      intro n lines line _ hls hl l hmem
      simp only [wrapLoop] at hmem
      rcases List.mem_append.mp hmem with h | h
      · exact hls l h
      · rw [List.mem_singleton.mp h]; exact hl
  | cons c cs ih =>
      intro n lines line h0 hls hl
      simp only [wrapLoop]
      by_cases hc : maxWidth < measure (line ++ [c]) ∧ 0 < n
      · rw [if_pos hc]
        refine ih (n + 1) (lines ++ [line]) [c] (by simp) ?_ (Or.inr (by simp))
        intro l hmem
        rcases List.mem_append.mp hmem with h | h
        · exact hls l h
        · rw [List.mem_singleton.mp h]; exact hl
      · rw [if_neg hc]
        refine ih (n + 1) lines (line ++ [c]) (by simp) hls ?_
        rcases not_and_or.mp hc with h | h
        · exact Or.inl (not_lt.mp h)
        · have hn : n = 0 := Nat.eq_zero_of_not_pos h
          rw [h0 hn]
          exact Or.inr (by simp)

/-- Counterexample to C9 as stated: on empty text the produced line is the
empty string, which does not consist of exactly one character, and an
adversarial measure function can give it a width above `maxWidth`. -/
theorem claim9_counterexample :
    ([] : List Char) ∈ wrapLines (fun _ => (500 : ℚ)) 460 [] ∧
    ¬((fun _ => (500 : ℚ)) ([] : List Char) ≤ 460 ∨
        ([] : List Char).length = 1) := by
  refine ⟨by simp [wrapLines, wrapLoop], ?_⟩
  push_neg
  exact ⟨by norm_num, by simp⟩

/-- C9 amended: every line produced by the wrap algorithm either measures at
most `maxWidth` or has at most one character (an oversized single character
is still emitted as its own line; the only shorter line is the empty line of
empty input). -/
theorem claim9_line_bound (measure : List Char → ℚ) (maxWidth : ℚ)
    (text : List Char) (l : List Char)
    (hl : l ∈ wrapLines measure maxWidth text) :
    measure l ≤ maxWidth ∨ l.length ≤ 1 := by
  unfold wrapLines at hl
  exact wrapLoop_goodLines measure maxWidth text 0 [] []
    (fun _ => rfl) (by simp) (Or.inr (by simp)) l hl

/-- Witness for C9: the single character input produces the single line list
and that line is within the bound. -/
theorem claim9_line_bound_witness :
    [ 'a'] ∈ wrapLines (fun _ => (0 : ℚ)) 100 [ 'a'] ∧
    ((fun _ => (0 : ℚ)) [ 'a'] ≤ 100 ∨ ([ 'a'] : List Char).length ≤ 1) := by
  have hmem : [ 'a'] ∈ wrapLines (fun _ => (0 : ℚ)) 100 [ 'a'] := by
    norm_num [wrapLines, wrapLoop]
  exact ⟨hmem, claim9_line_bound (fun _ => (0 : ℚ)) 100 [ 'a'] [ 'a'] hmem⟩

theorem drawFromBottom_eq (x lineHeight : ℚ) :
    ∀ (ms : List (List Char)) (y : ℚ),
      drawFromBottom x lineHeight ms y =
        ((List.range ms.length).map (fun j =>
          [DrawCmd.strokeText (ms.getD j []) x (y - j * lineHeight),
           DrawCmd.fillText (ms.getD j []) x (y - j * lineHeight)])).flatten := by
  intro ms
  induction ms with
  | nil => intro y; simp [drawFromBottom]
  | cons m ms ih =>
      intro y
      rw [drawFromBottom, ih (y - lineHeight), List.length_cons,
        List.range_succ_eq_map, List.map_cons, List.flatten_cons, List.map_map]
      simp only [List.getD_cons_zero, Nat.cast_zero, zero_mul, sub_zero,
        List.cons_append, List.nil_append]
      refine congrArg₂ List.cons rfl
        (congrArg₂ List.cons rfl (congrArg List.flatten (List.map_congr_left ?_)))
      intro j hj
      simp only [Function.comp_apply, List.getD_cons_succ, Nat.succ_eq_add_one]
      congr 2 <;> push_cast <;> ring_nf

theorem getD_reverse_eq {α : Type} (l : List α) (j : ℕ) (hj : j < l.length) (d : α) :
    l.reverse.getD j d = l.getD (l.length - 1 - j) d := by
  rw [List.getD_eq_getElem?_getD, List.getD_eq_getElem?_getD, List.getElem?_reverse hj]

/-- C6: for a nonempty wrapped line list, the draw command sequence of the
`MemePreview` text call issues, for each distance `j` from the last line, a
stroke and then a fill of the line at index `length - 1 - j`, at vertical
position `(512 - textYOffset) - j * (fontSize * 1.2)`; in particular the
last line sits at `y = 512 - textYOffset` and each earlier line one
`lineHeight` above the previous one. -/
theorem claim6_bottom_anchored (measure : List Char → ℚ) (text : List Char)
    (fontSize textYOffset : ℚ)
    (hne : wrapLines measure (PREVIEW_SIZE * 0.9) text ≠ []) :
    memePreviewTextCmds measure text fontSize textYOffset =
      ((List.range (wrapLines measure (PREVIEW_SIZE * 0.9) text).length).map (fun j =>
        [DrawCmd.strokeText
            ((wrapLines measure (PREVIEW_SIZE * 0.9) text).getD
              ((wrapLines measure (PREVIEW_SIZE * 0.9) text).length - 1 - j) [])
            (PREVIEW_SIZE / 2)
            ((PREVIEW_SIZE - textYOffset) - j * (fontSize * 1.2)),
         DrawCmd.fillText
            ((wrapLines measure (PREVIEW_SIZE * 0.9) text).getD
              ((wrapLines measure (PREVIEW_SIZE * 0.9) text).length - 1 - j) [])
            (PREVIEW_SIZE / 2)
            ((PREVIEW_SIZE - textYOffset) - j * (fontSize * 1.2))])).flatten := by
  unfold memePreviewTextCmds wrapText
  rw [drawFromBottom_eq, List.length_reverse]
  refine congrArg List.flatten (List.map_congr_left ?_)
  intro j hj
  rw [List.mem_range] at hj
  rw [getD_reverse_eq _ j hj]

/-- Witness for C6: with a measure that makes the three-character text fit
one line, the `MemePreview` call at font size 51 and offset 30 draws a
single stroked-then-filled line anchored at `y = 512 - 30 = 482`. -/
theorem claim6_bottom_anchored_witness :
    wrapLines (fun _ => (0 : ℚ)) (PREVIEW_SIZE * 0.9) [ '你', '好', '呀'] ≠ [] ∧
    memePreviewTextCmds (fun _ => (0 : ℚ)) [ '你', '好', '呀'] 51 30 =
      [DrawCmd.strokeText [ '你', '好', '呀'] 256 482,
       DrawCmd.fillText [ '你', '好', '呀'] 256 482] := by
  have hls : wrapLines (fun _ => (0 : ℚ)) (PREVIEW_SIZE * 0.9) [ '你', '好', '呀'] =
      [[ '你', '好', '呀']] := by
    norm_num [wrapLines, wrapLoop, PREVIEW_SIZE]
  have hne : wrapLines (fun _ => (0 : ℚ)) (PREVIEW_SIZE * 0.9) [ '你', '好', '呀'] ≠ [] := by
    rw [hls]; simp
  refine ⟨hne, ?_⟩
  rw [claim6_bottom_anchored (fun _ => (0 : ℚ)) [ '你', '好', '呀'] 51 30 hne, hls]
  norm_num [PREVIEW_SIZE, List.range_succ]

end MemeEditor
